import Mathlib

/-!
Shallow embedding of the relaxation kernels in
`packages/kokkos/LinAlg/Kokkos_DefaultRelaxationKernelOps.hpp`
(namespace `Kokkos`): two diagonal extractors, two Jacobi kernels and two
fine-grain hybrid Gauss-Seidel kernels, over two sparse storage formats.

Modelling conventions:
* `Scalar` is embedded as `ℚ` (exact arithmetic), `Ordinal` and `size_t`
  as `ℕ`.
* A read-only pointer is modelled as a total function `ℕ → ℚ` (or
  `ℕ → ℕ`) from offsets to contents; pointer arithmetic `p + s` becomes
  the precomposition `fun k => p (s + k)`.
* The output buffer written by a kernel (`diag` for the extractors, `x`
  for Jacobi and Gauss-Seidel) is threaded explicitly: `execute` takes
  the buffer before the call and returns the buffer after it.  For the
  Jacobi and Gauss-Seidel kernels the `x` pointer of the C++ struct is
  modelled as a base offset `xbase` into that buffer, so that the
  pointer arithmetic `x + rhs*xstride` of the source is visible.
* The C++ `for` loops run over explicit index lists and their
  `tmp -=` accumulation is a `List.foldl`.
-/

namespace Kokkos

/-- Entry indices of row `row` in format-A (offset/index/value) storage:
the half-open range `[offsets row, offsets (row+1))`, exactly the values
taken by `c` in the C++ loop `for (c = offsets[row]; c < offsets[row+1]; c++)`. -/
def rowRange1 (offsets : ℕ → ℕ) (row : ℕ) : List ℕ :=
  List.range' (offsets row) (offsets (row + 1) - offsets row)

/-- The `(column, value)` pairs of row `row` of a format-A matrix, in
storage order. -/
def rowEntries1 (offsets inds : ℕ → ℕ) (vals : ℕ → ℚ) (row : ℕ) : List (ℕ × ℚ) :=
  (rowRange1 offsets row).map (fun c => (inds c, vals c))

/-- The `(column, value)` pairs of row `row` of a format-B
(row-pointer jagged) matrix, in storage order: `j` runs over
`[0, numEntries row)` as in the C++ loop. -/
def rowEntries2 (inds_beg : ℕ → ℕ → ℕ) (vals_beg : ℕ → ℕ → ℚ)
    (numEntries : ℕ → ℕ) (row : ℕ) : List (ℕ × ℚ) :=
  (List.range (numEntries row)).map (fun j => (inds_beg row j, vals_beg row j))

/-- `Kokkos::ExtractDiagonalOp1`: diagonal extraction for format-A storage.
The `diag` output pointer is threaded through `execute`. -/
structure ExtractDiagonalOp1 where
  offsets : ℕ → ℕ
  inds : ℕ → ℕ
  vals : ℕ → ℚ
  numRows : ℕ

/-- `ExtractDiagonalOp1::execute(row)`: scan the entries of `row`; at the
first entry whose column index equals `row`, write its value to `diag[row]`
and `break`; if none matches, `diag` is untouched. -/
def ExtractDiagonalOp1.execute (op : ExtractDiagonalOp1) (diag : ℕ → ℚ)
    (row : ℕ) : ℕ → ℚ :=
  match (rowRange1 op.offsets row).find? (fun c => op.inds c == row) with
  | some c => Function.update diag row (op.vals c)
  | none => diag

/-- `Kokkos::ExtractDiagonalOp2`: diagonal extraction for format-B storage. -/
structure ExtractDiagonalOp2 where
  inds_beg : ℕ → ℕ → ℕ
  vals_beg : ℕ → ℕ → ℚ
  numEntries : ℕ → ℕ
  numRows : ℕ

/-- `ExtractDiagonalOp2::execute(row)`: same first-match scan over
`j < numEntries[row]`, reading `curind = inds_beg[row]`,
`curval = vals_beg[row]`. -/
def ExtractDiagonalOp2.execute (op : ExtractDiagonalOp2) (diag : ℕ → ℚ)
    (row : ℕ) : ℕ → ℚ :=
  match (List.range (op.numEntries row)).find? (fun j => op.inds_beg row j == row) with
  | some j => Function.update diag row (op.vals_beg row j)
  | none => diag

/-- `Kokkos::DefaultJacobiOp1`: damped Jacobi kernel, format-A storage.
`x` (the written iterate) is the threaded buffer; `xbase` models the value
of the C++ `x` pointer as an offset into it. -/
structure DefaultJacobiOp1 where
  offsets : ℕ → ℕ
  inds : ℕ → ℕ
  vals : ℕ → ℚ
  diag : ℕ → ℚ
  numRows : ℕ
  x0 : ℕ → ℚ
  b : ℕ → ℚ
  damping_factor : ℚ
  xstride : ℕ
  bstride : ℕ
  xbase : ℕ

/-- `DefaultJacobiOp1::execute(i)`: decompose `i` into `row = i % numRows`,
`rhs = (i - row) / numRows`; column pointers `xj = x + rhs*xstride`,
`x0j = x0 + rhs*xstride`, `bj = b + rhs*bstride`; accumulate
`tmp = bj[row] - Σ vals[c] * x0j[inds[c]]` over the row's entry range and
write `xj[row] = x0j[row] + damping_factor * tmp / diag[row]`. -/
def DefaultJacobiOp1.execute (op : DefaultJacobiOp1) (x : ℕ → ℚ) (i : ℕ) :
    ℕ → ℚ :=
  let row := i % op.numRows
  let rhs := (i - row) / op.numRows
  let x0j : ℕ → ℚ := fun k => op.x0 (rhs * op.xstride + k)
  let bj : ℕ → ℚ := fun k => op.b (rhs * op.bstride + k)
  let tmp := (rowRange1 op.offsets row).foldl
    (fun acc c => acc - op.vals c * x0j (op.inds c)) (bj row)
  Function.update x (op.xbase + rhs * op.xstride + row)
    (x0j row + op.damping_factor * tmp / op.diag row)

/-- `Kokkos::DefaultJacobiOp2`: damped Jacobi kernel, format-B storage. -/
structure DefaultJacobiOp2 where
  inds_beg : ℕ → ℕ → ℕ
  vals_beg : ℕ → ℕ → ℚ
  numEntries : ℕ → ℕ
  diag : ℕ → ℚ
  numRows : ℕ
  x0 : ℕ → ℚ
  b : ℕ → ℚ
  damping_factor : ℚ
  xstride : ℕ
  bstride : ℕ
  xbase : ℕ

/-- `DefaultJacobiOp2::execute(i)`: as format A, with the entry loop
`for (j = 0; j != numEntries[row]; ++j)` over `curval = vals_beg[row]`,
`curind = inds_beg[row]`. -/
def DefaultJacobiOp2.execute (op : DefaultJacobiOp2) (x : ℕ → ℚ) (i : ℕ) :
    ℕ → ℚ :=
  let row := i % op.numRows
  let rhs := (i - row) / op.numRows
  let x0j : ℕ → ℚ := fun k => op.x0 (rhs * op.xstride + k)
  let bj : ℕ → ℚ := fun k => op.b (rhs * op.bstride + k)
  let tmp := (List.range (op.numEntries row)).foldl
    (fun acc j => acc - op.vals_beg row j * x0j (op.inds_beg row j)) (bj row)
  Function.update x (op.xbase + rhs * op.xstride + row)
    (x0j row + op.damping_factor * tmp / op.diag row)

/-- `Kokkos::DefaultFineGrainHybridGaussSeidelOp1`: fine-grain hybrid
Gauss-Seidel kernel, format-A storage.  Reads and writes the same `x`
buffer (threaded through `execute`, the C++ `x` pointer being offset
`xbase`). -/
structure DefaultFineGrainHybridGaussSeidelOp1 where
  offsets : ℕ → ℕ
  inds : ℕ → ℕ
  vals : ℕ → ℚ
  diag : ℕ → ℚ
  numRows : ℕ
  b : ℕ → ℚ
  damping_factor : ℚ
  xstride : ℕ
  bstride : ℕ
  xbase : ℕ

/-- `DefaultFineGrainHybridGaussSeidelOp1::execute(i)`: decompose `i`;
`xj = x + rhs*xstride`, `bj = b + rhs*bstride`; accumulate
`tmp = bj[row] - Σ vals[c] * xj[inds[c]]` over the row's entry range
(reading the current `x`) and write `xj[row] += damping_factor * tmp / diag[row]`. -/
def DefaultFineGrainHybridGaussSeidelOp1.execute
    (op : DefaultFineGrainHybridGaussSeidelOp1) (x : ℕ → ℚ) (i : ℕ) : ℕ → ℚ :=
  let row := i % op.numRows
  let rhs := (i - row) / op.numRows
  let xj : ℕ → ℚ := fun k => x (op.xbase + rhs * op.xstride + k)
  let bj : ℕ → ℚ := fun k => op.b (rhs * op.bstride + k)
  let tmp := (rowRange1 op.offsets row).foldl
    (fun acc c => acc - op.vals c * xj (op.inds c)) (bj row)
  Function.update x (op.xbase + rhs * op.xstride + row)
    (xj row + op.damping_factor * tmp / op.diag row)

/-- `Kokkos::DefaultFineGrainHybridGaussSeidelOp2`: fine-grain hybrid
Gauss-Seidel kernel, format-B storage. -/
structure DefaultFineGrainHybridGaussSeidelOp2 where
  inds_beg : ℕ → ℕ → ℕ
  vals_beg : ℕ → ℕ → ℚ
  numEntries : ℕ → ℕ
  diag : ℕ → ℚ
  numRows : ℕ
  b : ℕ → ℚ
  damping_factor : ℚ
  xstride : ℕ
  bstride : ℕ
  xbase : ℕ

/-- `DefaultFineGrainHybridGaussSeidelOp2::execute(i)`: as format A, with
the `j != numEntries[row]` entry loop. -/
def DefaultFineGrainHybridGaussSeidelOp2.execute
    (op : DefaultFineGrainHybridGaussSeidelOp2) (x : ℕ → ℚ) (i : ℕ) : ℕ → ℚ :=
  let row := i % op.numRows
  let rhs := (i - row) / op.numRows
  let xj : ℕ → ℚ := fun k => x (op.xbase + rhs * op.xstride + k)
  let bj : ℕ → ℚ := fun k => op.b (rhs * op.bstride + k)
  let tmp := (List.range (op.numEntries row)).foldl
    (fun acc j => acc - op.vals_beg row j * xj (op.inds_beg row j)) (bj row)
  Function.update x (op.xbase + rhs * op.xstride + row)
    (xj row + op.damping_factor * tmp / op.diag row)

/-- Sum `Σ v * y c` of a list of `(column, value)` entries against a
vector `y`, the linear form a relaxation kernel subtracts from `b`. -/
def rowSum (l : List (ℕ × ℚ)) (y : ℕ → ℚ) : ℚ :=
  (l.map (fun p => p.2 * y p.1)).sum

theorem rowSum_nil (y : ℕ → ℚ) : rowSum [] y = 0 := rfl

theorem rowSum_cons (p : ℕ × ℚ) (t : List (ℕ × ℚ)) (y : ℕ → ℚ) :
    rowSum (p :: t) y = p.2 * y p.1 + rowSum t y := by
  simp [rowSum]

/-- A left fold of subtractions of entry terms is the start value minus the
entry sum. -/
theorem foldl_sub_eq (l : List (ℕ × ℚ)) (y : ℕ → ℚ) (a : ℚ) :
    l.foldl (fun acc p => acc - p.2 * y p.1) a = a - rowSum l y := by
  induction l generalizing a with
  | nil => simp [rowSum]
  | cons p t ih =>
    rw [List.foldl_cons, ih, rowSum_cons]
    ring

/-- The `tmp -=` loop of a format-A kernel computes
`a - Σ v * y c` over the row's entries. -/
theorem foldl_range1_sub (offsets inds : ℕ → ℕ) (vals : ℕ → ℚ) (row : ℕ)
    (y : ℕ → ℚ) (a : ℚ) :
    (rowRange1 offsets row).foldl (fun acc c => acc - vals c * y (inds c)) a
      = a - rowSum (rowEntries1 offsets inds vals row) y := by
  rw [rowEntries1, ← foldl_sub_eq, List.foldl_map]

/-- The `tmp -=` loop of a format-B kernel computes
`a - Σ v * y c` over the row's entries. -/
theorem foldl_range2_sub (inds_beg : ℕ → ℕ → ℕ) (vals_beg : ℕ → ℕ → ℚ)
    (numEntries : ℕ → ℕ) (row : ℕ) (y : ℕ → ℚ) (a : ℚ) :
    (List.range (numEntries row)).foldl
        (fun acc j => acc - vals_beg row j * y (inds_beg row j)) a
      = a - rowSum (rowEntries2 inds_beg vals_beg numEntries row) y := by
  rw [rowEntries2, ← foldl_sub_eq, List.foldl_map]

/-- The source computes `rhs` as `(i - row) / numRows` with
`row = i % numRows`; this equals plain `i / numRows`. -/
theorem sub_mod_div (i n : ℕ) : (i - i % n) / n = i / n := by
  rcases Nat.eq_zero_or_pos n with h | h
  · subst h; simp
  · have h2 : i - i % n = n * (i / n) := by
      have := Nat.div_add_mod i n
      omega
    rw [h2, Nat.mul_div_cancel_left _ h]

/-- Closed form of one format-A Jacobi per-index update. -/
theorem jac1_exec_eq (op : DefaultJacobiOp1) (x : ℕ → ℚ) (i : ℕ) :
    op.execute x i =
      Function.update x (op.xbase + i / op.numRows * op.xstride + i % op.numRows)
        (op.x0 (i / op.numRows * op.xstride + i % op.numRows)
          + op.damping_factor
            * (op.b (i / op.numRows * op.bstride + i % op.numRows)
              - rowSum (rowEntries1 op.offsets op.inds op.vals (i % op.numRows))
                  (fun c => op.x0 (i / op.numRows * op.xstride + c)))
            / op.diag (i % op.numRows)) := by
  have h := foldl_range1_sub op.offsets op.inds op.vals (i % op.numRows)
    (fun k => op.x0 (i / op.numRows * op.xstride + k))
    (op.b (i / op.numRows * op.bstride + i % op.numRows))
  simp only [] at h
  simp only [DefaultJacobiOp1.execute, sub_mod_div]
  rw [h]

/-- Closed form of one format-B Jacobi per-index update. -/
theorem jac2_exec_eq (op : DefaultJacobiOp2) (x : ℕ → ℚ) (i : ℕ) :
    op.execute x i =
      Function.update x (op.xbase + i / op.numRows * op.xstride + i % op.numRows)
        (op.x0 (i / op.numRows * op.xstride + i % op.numRows)
          + op.damping_factor
            * (op.b (i / op.numRows * op.bstride + i % op.numRows)
              - rowSum (rowEntries2 op.inds_beg op.vals_beg op.numEntries (i % op.numRows))
                  (fun c => op.x0 (i / op.numRows * op.xstride + c)))
            / op.diag (i % op.numRows)) := by
  have h := foldl_range2_sub op.inds_beg op.vals_beg op.numEntries (i % op.numRows)
    (fun k => op.x0 (i / op.numRows * op.xstride + k))
    (op.b (i / op.numRows * op.bstride + i % op.numRows))
  simp only [] at h
  simp only [DefaultJacobiOp2.execute, sub_mod_div]
  rw [h]

/-- Closed form of one format-A Gauss-Seidel per-index update: the entry
sum reads the current `x` through the column pointer, diagonal entry
included, and the result is added onto `x`'s slot. -/
theorem gs1_exec_eq (op : DefaultFineGrainHybridGaussSeidelOp1) (x : ℕ → ℚ)
    (i : ℕ) :
    op.execute x i =
      Function.update x (op.xbase + i / op.numRows * op.xstride + i % op.numRows)
        (x (op.xbase + i / op.numRows * op.xstride + i % op.numRows)
          + op.damping_factor
            * (op.b (i / op.numRows * op.bstride + i % op.numRows)
              - rowSum (rowEntries1 op.offsets op.inds op.vals (i % op.numRows))
                  (fun c => x (op.xbase + i / op.numRows * op.xstride + c)))
            / op.diag (i % op.numRows)) := by
  have h := foldl_range1_sub op.offsets op.inds op.vals (i % op.numRows)
    (fun k => x (op.xbase + i / op.numRows * op.xstride + k))
    (op.b (i / op.numRows * op.bstride + i % op.numRows))
  simp only [] at h
  simp only [DefaultFineGrainHybridGaussSeidelOp1.execute, sub_mod_div]
  rw [h]

/-- Closed form of one format-B Gauss-Seidel per-index update. -/
theorem gs2_exec_eq (op : DefaultFineGrainHybridGaussSeidelOp2) (x : ℕ → ℚ)
    (i : ℕ) :
    op.execute x i =
      Function.update x (op.xbase + i / op.numRows * op.xstride + i % op.numRows)
        (x (op.xbase + i / op.numRows * op.xstride + i % op.numRows)
          + op.damping_factor
            * (op.b (i / op.numRows * op.bstride + i % op.numRows)
              - rowSum (rowEntries2 op.inds_beg op.vals_beg op.numEntries (i % op.numRows))
                  (fun c => x (op.xbase + i / op.numRows * op.xstride + c)))
            / op.diag (i % op.numRows)) := by
  have h := foldl_range2_sub op.inds_beg op.vals_beg op.numEntries (i % op.numRows)
    (fun k => x (op.xbase + i / op.numRows * op.xstride + k))
    (op.b (i / op.numRows * op.bstride + i % op.numRows))
  simp only [] at h
  simp only [DefaultFineGrainHybridGaussSeidelOp2.execute, sub_mod_div]
  rw [h]

/-- Factoring `find?` through the entry-pair view of a format-A row. -/
theorem find1_entries (offsets inds : ℕ → ℕ) (vals : ℕ → ℚ) (row : ℕ) :
    (rowEntries1 offsets inds vals row).find? (fun p => p.1 == row)
      = ((rowRange1 offsets row).find? (fun c => inds c == row)).map
          (fun c => (inds c, vals c)) := by
  rw [rowEntries1, List.find?_map]
  rfl

/-- Factoring `find?` through the entry-pair view of a format-B row. -/
theorem find2_entries (inds_beg : ℕ → ℕ → ℕ) (vals_beg : ℕ → ℕ → ℚ)
    (numEntries : ℕ → ℕ) (row : ℕ) :
    (rowEntries2 inds_beg vals_beg numEntries row).find? (fun p => p.1 == row)
      = ((List.range (numEntries row)).find? (fun j => inds_beg row j == row)).map
          (fun j => (inds_beg row j, vals_beg row j)) := by
  rw [rowEntries2, List.find?_map]
  rfl

/-- The format-A extractor in terms of the row's entry list: first entry
whose column equals the row wins, otherwise `diag` is unchanged. -/
theorem extract1_exec_eq (op : ExtractDiagonalOp1) (diag : ℕ → ℚ) (row : ℕ) :
    op.execute diag row =
      match (rowEntries1 op.offsets op.inds op.vals row).find? (fun p => p.1 == row) with
      | some p => Function.update diag row p.2
      | none => diag := by
  unfold ExtractDiagonalOp1.execute
  rw [find1_entries]
  cases (rowRange1 op.offsets row).find? (fun c => op.inds c == row) with
  | none => rfl
  | some c => rfl

/-- The format-B extractor in terms of the row's entry list. -/
theorem extract2_exec_eq (op : ExtractDiagonalOp2) (diag : ℕ → ℚ) (row : ℕ) :
    op.execute diag row =
      match (rowEntries2 op.inds_beg op.vals_beg op.numEntries row).find?
          (fun p => p.1 == row) with
      | some p => Function.update diag row p.2
      | none => diag := by
  unfold ExtractDiagonalOp2.execute
  rw [find2_entries]
  cases (List.range (op.numEntries row)).find? (fun j => op.inds_beg row j == row) with
  | none => rfl
  | some j => rfl

/-- The value `diag[r]` holds after one extractor call on row `r`, as a
function of the row's entry list and the prior contents `d` of the slot. -/
def diagResult (l : List (ℕ × ℚ)) (d : ℚ) (r : ℕ) : ℚ :=
  match l.find? (fun p => p.1 == r) with
  | some p => p.2
  | none => d

/-- One format-A extractor call changes no slot other than its row. -/
theorem extract1_frame (op : ExtractDiagonalOp1) (diag : ℕ → ℚ) (row k : ℕ)
    (hk : k ≠ row) : op.execute diag row k = diag k := by
  rw [extract1_exec_eq]
  cases (rowEntries1 op.offsets op.inds op.vals row).find? (fun p => p.1 == row) with
  | none => rfl
  | some p => exact Function.update_noteq hk _ _

/-- One format-B extractor call changes no slot other than its row. -/
theorem extract2_frame (op : ExtractDiagonalOp2) (diag : ℕ → ℚ) (row k : ℕ)
    (hk : k ≠ row) : op.execute diag row k = diag k := by
  rw [extract2_exec_eq]
  cases (rowEntries2 op.inds_beg op.vals_beg op.numEntries row).find?
      (fun p => p.1 == row) with
  | none => rfl
  | some p => exact Function.update_noteq hk _ _

/-- Value written to the row's own slot by one format-A extractor call. -/
theorem extract1_val (op : ExtractDiagonalOp1) (diag : ℕ → ℚ) (row : ℕ) :
    op.execute diag row row
      = diagResult (rowEntries1 op.offsets op.inds op.vals row) (diag row) row := by
  rw [extract1_exec_eq, diagResult]
  cases (rowEntries1 op.offsets op.inds op.vals row).find? (fun p => p.1 == row) with
  | none => rfl
  | some p => exact Function.update_same _ _ _

/-- Value written to the row's own slot by one format-B extractor call. -/
theorem extract2_val (op : ExtractDiagonalOp2) (diag : ℕ → ℚ) (row : ℕ) :
    op.execute diag row row
      = diagResult (rowEntries2 op.inds_beg op.vals_beg op.numEntries row) (diag row) row := by
  rw [extract2_exec_eq, diagResult]
  cases (rowEntries2 op.inds_beg op.vals_beg op.numEntries row).find?
      (fun p => p.1 == row) with
  | none => rfl
  | some p => exact Function.update_same _ _ _

/-- A full extractor run: the external dispatcher calls `execute` for every
row in `[0, numRows)` (modelled in increasing order; the result is
order-independent since each call writes a disjoint slot). -/
def ExtractDiagonalOp1.sweep (op : ExtractDiagonalOp1) (diag : ℕ → ℚ) : ℕ → ℚ :=
  (List.range op.numRows).foldl op.execute diag

/-- A full format-B extractor run over rows `[0, numRows)`. -/
def ExtractDiagonalOp2.sweep (op : ExtractDiagonalOp2) (diag : ℕ → ℚ) : ℕ → ℚ :=
  (List.range op.numRows).foldl op.execute diag

/-- A fold of per-row diagonal writes, evaluated at one slot: rows already
processed hold `diagResult`, all other slots the prior contents. -/
theorem fold_diag_eval (f : (ℕ → ℚ) → ℕ → (ℕ → ℚ)) (rows : ℕ → List (ℕ × ℚ))
    (Hframe : ∀ d row k, k ≠ row → f d row k = d k)
    (Hval : ∀ d row, f d row row = diagResult (rows row) (d row) row)
    (n r : ℕ) (d : ℕ → ℚ) :
    ((List.range n).foldl f d) r
      = if r < n then diagResult (rows r) (d r) r else d r := by
  induction n with
  | zero => simp
  | succ m ih =>
    rw [List.range_succ, List.foldl_append]
    simp only [List.foldl_cons, List.foldl_nil]
    rcases eq_or_ne r m with h | h
    · subst h
      rw [Hval, ih]
      simp [Nat.lt_irrefl]
    · rw [Hframe _ _ _ h, ih]
      rcases Nat.lt_or_ge r m with hlt | hge
      · rw [if_pos hlt, if_pos (Nat.lt_succ_of_lt hlt)]
      · have h1 : ¬ r < m := Nat.not_lt.mpr hge
        have h2 : ¬ r < m + 1 := by omega
        rw [if_neg h1, if_neg h2]

/-- One Jacobi sweep, format A: the external dispatcher calls `execute`
for every flat index in `[0, total)` where `total = numRows * numRHS`
(modelled in increasing index order). -/
def DefaultJacobiOp1.sweep (op : DefaultJacobiOp1) (total : ℕ) (x : ℕ → ℚ) :
    ℕ → ℚ :=
  (List.range total).foldl op.execute x

/-- One Jacobi sweep, format B. -/
def DefaultJacobiOp2.sweep (op : DefaultJacobiOp2) (total : ℕ) (x : ℕ → ℚ) :
    ℕ → ℚ :=
  (List.range total).foldl op.execute x

/-- One Gauss-Seidel sweep, format A, rows processed in strictly
increasing index order by a sequential dispatcher. -/
def DefaultFineGrainHybridGaussSeidelOp1.sweep
    (op : DefaultFineGrainHybridGaussSeidelOp1) (total : ℕ) (x : ℕ → ℚ) :
    ℕ → ℚ :=
  (List.range total).foldl op.execute x

/-- One Gauss-Seidel sweep, format B, increasing index order. -/
def DefaultFineGrainHybridGaussSeidelOp2.sweep
    (op : DefaultFineGrainHybridGaussSeidelOp2) (total : ℕ) (x : ℕ → ℚ) :
    ℕ → ℚ :=
  (List.range total).foldl op.execute x

/-- The format-A Jacobi kernel re-pointed at right-hand-side column `rhs`:
the x pointer becomes `x + rhs*xstride`, and the read-only pointers `x0`
and `b` are advanced by `rhs*xstride` and `rhs*bstride` respectively, as a
caller would do to run a single-column sweep on that column. -/
def colOp1 (op : DefaultJacobiOp1) (rhs : ℕ) : DefaultJacobiOp1 :=
  { op with
    xbase := op.xbase + rhs * op.xstride
    x0 := fun k => op.x0 (rhs * op.xstride + k)
    b := fun k => op.b (rhs * op.bstride + k) }

/-- The format-B Jacobi kernel re-pointed at right-hand-side column `rhs`. -/
def colOp2 (op : DefaultJacobiOp2) (rhs : ℕ) : DefaultJacobiOp2 :=
  { op with
    xbase := op.xbase + rhs * op.xstride
    x0 := fun k => op.x0 (rhs * op.xstride + k)
    b := fun k => op.b (rhs * op.bstride + k) }

/-- Two folds agree when the folded functions agree on the list's
elements. -/
theorem foldl_congr_mem {α β : Type} (l : List β) (f g : α → β → α) (a : α)
    (h : ∀ acc b, b ∈ l → f acc b = g acc b) : l.foldl f a = l.foldl g a := by
  induction l generalizing a with
  | nil => rfl
  | cons p t ih =>
    rw [List.foldl_cons, List.foldl_cons, h a p (List.mem_cons_self p t)]
    exact ih _ (fun acc b hb => h acc b (List.mem_cons_of_mem p hb))

/-- Flat index `numRows*m + r` drives the format-A Jacobi kernel exactly
as index `r` drives the kernel re-pointed at column `m`. -/
theorem jac1_exec_flat (op : DefaultJacobiOp1) (y : ℕ → ℚ) (m r : ℕ)
    (hr : r < op.numRows) :
    op.execute y (op.numRows * m + r) = (colOp1 op m).execute y r := by
  rw [jac1_exec_eq, jac1_exec_eq]
  have hm : (op.numRows * m + r) % op.numRows = r := by
    rw [Nat.mul_add_mod]
    exact Nat.mod_eq_of_lt hr
  have hd : (op.numRows * m + r) / op.numRows = m := by
    rw [Nat.mul_add_div (Nat.zero_lt_of_lt hr) ,
      Nat.div_eq_of_lt hr, Nat.add_zero]
  simp [colOp1, hm, hd, Nat.mod_eq_of_lt hr, Nat.div_eq_of_lt hr, Nat.add_assoc]

/-- Flat index `numRows*m + r` drives the format-B Jacobi kernel exactly
as index `r` drives the kernel re-pointed at column `m`. -/
theorem jac2_exec_flat (op : DefaultJacobiOp2) (y : ℕ → ℚ) (m r : ℕ)
    (hr : r < op.numRows) :
    op.execute y (op.numRows * m + r) = (colOp2 op m).execute y r := by
  rw [jac2_exec_eq, jac2_exec_eq]
  have hm : (op.numRows * m + r) % op.numRows = r := by
    rw [Nat.mul_add_mod]
    exact Nat.mod_eq_of_lt hr
  have hd : (op.numRows * m + r) / op.numRows = m := by
    rw [Nat.mul_add_div (Nat.zero_lt_of_lt hr),
      Nat.div_eq_of_lt hr, Nat.add_zero]
  simp [colOp2, hm, hd, Nat.mod_eq_of_lt hr, Nat.div_eq_of_lt hr, Nat.add_assoc]

/-- A format-A Jacobi sweep over the flat range `[0, numRows*numRHS)`
equals `numRHS` successive single-column sweeps over `[0, numRows)`, each
with the kernel's pointers advanced to that column. -/
theorem jac1_sweep_cols (op : DefaultJacobiOp1) (numRHS : ℕ) (x : ℕ → ℚ) :
    op.sweep (op.numRows * numRHS) x
      = (List.range numRHS).foldl
          (fun y rhs => (colOp1 op rhs).sweep op.numRows y) x := by
  induction numRHS with
  | zero => simp [DefaultJacobiOp1.sweep]
  | succ m ih =>
    simp only [DefaultJacobiOp1.sweep] at *
    rw [Nat.mul_succ, List.range_add, List.foldl_append, List.foldl_map, ih,
      List.range_succ, List.foldl_append, List.foldl_cons, List.foldl_nil]
    exact foldl_congr_mem _ _ _ _
      (fun acc r hr => jac1_exec_flat op acc m r (List.mem_range.mp hr))

/-- A format-B Jacobi sweep over the flat range equals `numRHS` successive
single-column sweeps with the pointers advanced to each column. -/
theorem jac2_sweep_cols (op : DefaultJacobiOp2) (numRHS : ℕ) (x : ℕ → ℚ) :
    op.sweep (op.numRows * numRHS) x
      = (List.range numRHS).foldl
          (fun y rhs => (colOp2 op rhs).sweep op.numRows y) x := by
  induction numRHS with
  | zero => simp [DefaultJacobiOp2.sweep]
  | succ m ih =>
    simp only [DefaultJacobiOp2.sweep] at *
    rw [Nat.mul_succ, List.range_add, List.foldl_append, List.foldl_map, ih,
      List.range_succ, List.foldl_append, List.foldl_cons, List.foldl_nil]
    exact foldl_congr_mem _ _ _ _
      (fun acc r hr => jac2_exec_flat op acc m r (List.mem_range.mp hr))

/-- `rowSum` only looks at the vector's values at the entry columns. -/
theorem rowSum_congr (l : List (ℕ × ℚ)) (y z : ℕ → ℚ)
    (h : ∀ p ∈ l, y p.1 = z p.1) : rowSum l y = rowSum l z := by
  induction l with
  | nil => rfl
  | cons p t ih =>
    rw [rowSum_cons, rowSum_cons, h p (List.mem_cons_self p t),
      ih (fun q hq => h q (List.mem_cons_of_mem p hq))]

/-- Effect of a single-slot vector update on a row's entry sum: it moves
by the total diagonal weight at that slot times the change. -/
theorem rowSum_update (l : List (ℕ × ℚ)) (y : ℕ → ℚ) (s : ℕ) (v : ℚ) :
    rowSum l (Function.update y s v)
      = rowSum l y + ((l.filter (fun p => p.1 == s)).map Prod.snd).sum * (v - y s) := by
  induction l with
  | nil => simp [rowSum]
  | cons p t ih =>
    rw [rowSum_cons, rowSum_cons, ih]
    by_cases h : p.1 = s
    · rw [List.filter_cons_of_pos (by simpa using h), Function.update_apply,
        if_pos h, h]
      simp only [List.map_cons, List.sum_cons]
      ring
    · rw [List.filter_cons_of_neg (by simpa using h), Function.update_apply,
        if_neg h]
      ring

/-- Updating a slot that no entry of the row references leaves the row's
entry sum unchanged. -/
theorem rowSum_update_of_ne (l : List (ℕ × ℚ)) (y : ℕ → ℚ) (s : ℕ) (v : ℚ)
    (h : ∀ p ∈ l, p.1 ≠ s) : rowSum l (Function.update y s v) = rowSum l y := by
  refine rowSum_congr _ _ _ (fun p hp => ?_)
  exact Function.update_noteq (h p hp) _ _

/-- Splitting a row's entry sum into the entries at column `r` and the
remaining entries. -/
theorem rowSum_filter_split (l : List (ℕ × ℚ)) (w : ℕ → ℚ) (r : ℕ) :
    rowSum l w
      = ((l.filter (fun p => p.1 == r)).map Prod.snd).sum * w r
        + rowSum (l.filter (fun p => !(p.1 == r))) w := by
  induction l with
  | nil => simp [rowSum]
  | cons p t ih =>
    rw [rowSum_cons, ih]
    by_cases h : p.1 = r
    · simp only [List.filter_cons, h, beq_self_eq_true, if_true, Bool.not_true,
        Bool.false_eq_true, if_false, List.map_cons, List.sum_cons, rowSum_cons]
      ring
    · simp only [List.filter_cons, beq_iff_eq, h, if_false, Bool.false_eq_true]
      rw [if_pos (by simp [h]), rowSum_cons]
      ring

/-- The format-A Gauss-Seidel update, specialised to a single right-hand
side (index below `numRows`, x pointer at the start of the buffer). -/
theorem gs1_exec_single (op : DefaultFineGrainHybridGaussSeidelOp1)
    (x : ℕ → ℚ) (i : ℕ) (hi : i < op.numRows) (hxb : op.xbase = 0) :
    op.execute x i = Function.update x i
      (x i + op.damping_factor
        * (op.b i - rowSum (rowEntries1 op.offsets op.inds op.vals i) x)
        / op.diag i) := by
  rw [gs1_exec_eq]
  simp [hxb, Nat.mod_eq_of_lt hi, Nat.div_eq_of_lt hi]

/-- The format-B Gauss-Seidel update, specialised to a single right-hand
side. -/
theorem gs2_exec_single (op : DefaultFineGrainHybridGaussSeidelOp2)
    (x : ℕ → ℚ) (i : ℕ) (hi : i < op.numRows) (hxb : op.xbase = 0) :
    op.execute x i = Function.update x i
      (x i + op.damping_factor
        * (op.b i - rowSum (rowEntries2 op.inds_beg op.vals_beg op.numEntries i) x)
        / op.diag i) := by
  rw [gs2_exec_eq]
  simp [hxb, Nat.mod_eq_of_lt hi, Nat.div_eq_of_lt hi]

/-- Forward-substitution correctness of an in-place Gauss-Seidel pass,
stated for any per-row update `g` with the Gauss-Seidel shape: on a
matrix whose rows hold only columns `≤ r`, with the diagonal weight of
each row equal to the nonzero `diag r`, one pass in increasing row order
leaves every row's equation satisfied. -/
theorem gauss_seidel_lower_tri (rows : ℕ → List (ℕ × ℚ)) (diag b : ℕ → ℚ)
    (n : ℕ) (g : (ℕ → ℚ) → ℕ → (ℕ → ℚ))
    (Hg : ∀ x i, i < n → g x i = Function.update x i
        (x i + (b i - rowSum (rows i) x) / diag i))
    (Hlow : ∀ r, r < n → ∀ p ∈ rows r, p.1 ≤ r)
    (Hdiag : ∀ r, r < n →
      (((rows r).filter (fun p => p.1 == r)).map Prod.snd).sum = diag r)
    (Hne : ∀ r, r < n → diag r ≠ 0)
    (x : ℕ → ℚ) :
    ∀ r, r < n → rowSum (rows r) ((List.range n).foldl g x) = b r := by
  have key : ∀ k, k ≤ n →
      ∀ r, r < k → rowSum (rows r) ((List.range k).foldl g x) = b r := by
    intro k
    induction k with
    | zero => intro _ r hr; omega
    | succ m ih =>
      intro hk r hr
      have hm : m < n := hk
      rw [List.range_succ, List.foldl_append, List.foldl_cons, List.foldl_nil,
        Hg _ m hm]
      rcases Nat.lt_or_ge r m with h | h
      · rw [rowSum_update_of_ne]
        · exact ih (Nat.le_of_succ_le hk) r h
        · intro p hp
          have := Hlow r (by omega) p hp
          omega
      · have hrm : r = m := by omega
        subst hrm
        rw [rowSum_update, Hdiag r hm]
        have hD : diag r ≠ 0 := Hne r hm
        field_simp
        ring
  exact key n (Nat.le_refl n)

/-- A lower-triangular system with nonzero diagonal weights has at most
one solution on the rows' index range. -/
theorem lower_tri_unique (rows : ℕ → List (ℕ × ℚ)) (diag b : ℕ → ℚ) (n : ℕ)
    (Hlow : ∀ r, r < n → ∀ p ∈ rows r, p.1 ≤ r)
    (Hdiag : ∀ r, r < n →
      (((rows r).filter (fun p => p.1 == r)).map Prod.snd).sum = diag r)
    (Hne : ∀ r, r < n → diag r ≠ 0)
    (y z : ℕ → ℚ)
    (hy : ∀ r, r < n → rowSum (rows r) y = b r)
    (hz : ∀ r, r < n → rowSum (rows r) z = b r) :
    ∀ r, r < n → y r = z r := by
  intro r
  induction r using Nat.strong_induction_on with
  | _ r ih =>
    intro hr
    have h1 := hy r hr
    have h2 := hz r hr
    rw [rowSum_filter_split _ _ r, Hdiag r hr] at h1 h2
    have hoff : rowSum ((rows r).filter (fun p => !(p.1 == r))) y
        = rowSum ((rows r).filter (fun p => !(p.1 == r))) z := by
      refine rowSum_congr _ _ _ (fun p hp => ?_)
      have hmem : p ∈ rows r := List.mem_of_mem_filter hp
      have hne : p.1 ≠ r := by
        have := List.of_mem_filter hp
        simpa using this
      have hlt : p.1 < r := Nat.lt_of_le_of_ne (Hlow r hr p hmem) hne
      exact ih p.1 hlt (Nat.lt_trans hlt hr)
    have hdz : diag r * y r = diag r * z r := by linarith
    exact mul_left_cancel₀ (Hne r hr) hdz

/-! Concrete instances: the 3×3 matrix of the spec's concrete scenario,
rows `[(0,2),(1,5)]`, `[(0,1),(1,3),(2,1)]`, `[(1,1),(2,4)]`, in both
storage formats, plus small kernels used to exercise the theorems. -/

def exOffsets : ℕ → ℕ := fun r => [0, 2, 5, 7].getD r 0

def exInds : ℕ → ℕ := fun c => [0, 1, 0, 1, 2, 1, 2].getD c 0

def exVals : ℕ → ℚ := fun c => [2, 5, 1, 3, 1, 1, 4].getD c 0

def exIndsB : ℕ → ℕ → ℕ := fun r j => ([[0, 1], [0, 1, 2], [1, 2]].getD r []).getD j 0

def exValsB : ℕ → ℕ → ℚ := fun r j => ([[2, 5], [1, 3, 1], [1, 4]].getD r []).getD j 0

def exNumEntries : ℕ → ℕ := fun r => [2, 3, 2].getD r 0

def exDiagOp1 : ExtractDiagonalOp1 := ⟨exOffsets, exInds, exVals, 3⟩

def exDiagOp2 : ExtractDiagonalOp2 := ⟨exIndsB, exValsB, exNumEntries, 3⟩

/-- Jacobi kernel on the example matrix, with the diag produced by the
extractor, `b = [1,1,1]`, `x0 = [0,0,0]`, `ω = 1`, one right-hand side. -/
def exJacOp1 : DefaultJacobiOp1 :=
  { offsets := exOffsets, inds := exInds, vals := exVals
    diag := exDiagOp1.sweep (fun _ => 0), numRows := 3
    x0 := fun _ => 0, b := fun _ => 1, damping_factor := 1
    xstride := 3, bstride := 3, xbase := 0 }

/-- 1×1 Gauss-Seidel kernel: single entry `(0, 1)` (the diagonal itself),
`diag = [1]`, `b = [0]`, `ω = 1`. -/
def gs1cex : DefaultFineGrainHybridGaussSeidelOp1 :=
  { offsets := fun r => [0, 1].getD r 0, inds := fun _ => 0, vals := fun _ => 1
    diag := fun _ => 1, numRows := 1, b := fun _ => 0, damping_factor := 1
    xstride := 1, bstride := 1, xbase := 0 }

/-- C1, counterexample.  On the 1×1 matrix whose only entry is the
diagonal `(0, 1)`, with `diag[0] = 1 ≠ 0`, `b = [0]`, `ω = 1` and current
`x = [1]`: the kernel subtracts the diagonal term too and writes
`x[0] = 1 + (0 - 1*1)/1 = 0`, whereas the claimed formula — the sum
running over only the entries with `c ≠ r` — predicts
`x[0] = 1 + (0 - 0)/1 = 1`.  So the per-index update does not compute the
claimed diagonal-excluded expression. -/
theorem gs_diag_excluded_cex :
    gs1cex.execute (fun _ => 1) 0 0
      ≠ 1 + gs1cex.damping_factor
          * (gs1cex.b 0
            - rowSum ((rowEntries1 gs1cex.offsets gs1cex.inds gs1cex.vals 0).filter
                (fun p => !(p.1 == 0))) (fun _ => 1))
          / gs1cex.diag 0 := by
  have he : rowEntries1 gs1cex.offsets gs1cex.inds gs1cex.vals 0 = [(0, 1)] := by
    decide
  have hr : rowRange1 gs1cex.offsets (0 % gs1cex.numRows) = [0] := by decide
  rw [he]
  simp only [DefaultFineGrainHybridGaussSeidelOp1.execute, hr,
    List.foldl_cons, List.foldl_nil]
  norm_num [gs1cex, Function.update, rowSum]

/-- C1, amended.  For every matrix (Format A or B), every row `r`,
right-hand-side column `rhs`, damping factor `ω` and diag, one
Gauss-Seidel per-index update computes `tmp` as `b[r,rhs]` minus the sum
of `v * x[c,rhs]` over ALL entries `(c, v)` of row `r` — the diagonal
entry is included in the sum, not excluded — and then performs
`x[r,rhs] += ω * tmp / diag[r]` (no nonzero-diagonal precondition is
needed in exact arithmetic). -/
theorem gs_update_all_entries :
    (∀ (op : DefaultFineGrainHybridGaussSeidelOp1) (x : ℕ → ℚ) (i : ℕ),
      op.execute x i =
        Function.update x (op.xbase + i / op.numRows * op.xstride + i % op.numRows)
          (x (op.xbase + i / op.numRows * op.xstride + i % op.numRows)
            + op.damping_factor
              * (op.b (i / op.numRows * op.bstride + i % op.numRows)
                - rowSum (rowEntries1 op.offsets op.inds op.vals (i % op.numRows))
                    (fun c => x (op.xbase + i / op.numRows * op.xstride + c)))
              / op.diag (i % op.numRows)))
    ∧ (∀ (op : DefaultFineGrainHybridGaussSeidelOp2) (x : ℕ → ℚ) (i : ℕ),
      op.execute x i =
        Function.update x (op.xbase + i / op.numRows * op.xstride + i % op.numRows)
          (x (op.xbase + i / op.numRows * op.xstride + i % op.numRows)
            + op.damping_factor
              * (op.b (i / op.numRows * op.bstride + i % op.numRows)
                - rowSum (rowEntries2 op.inds_beg op.vals_beg op.numEntries (i % op.numRows))
                    (fun c => x (op.xbase + i / op.numRows * op.xstride + c)))
              / op.diag (i % op.numRows))) :=
  ⟨fun op x i => gs1_exec_eq op x i, fun op x i => gs2_exec_eq op x i⟩

/-- C2.  For every matrix (Format A or B), every flat index `i` with
`r = i mod numRows` and `rhs = i div numRows`, and every diag, one Jacobi
per-index update writes `x[r,rhs] = x0[r,rhs] + ω * tmp / diag[r]` with
`tmp = b[r,rhs] - Σ v * x0[c,rhs]` over ALL entries `(c, v)` of row `r`
(diagonal included), reading only the fixed previous iterate `x0` (the
written value mentions `x0`, `b`, `diag` and the matrix only, never `x`). -/
theorem jacobi_update_formula :
    (∀ (op : DefaultJacobiOp1) (x : ℕ → ℚ) (i : ℕ),
      op.execute x i =
        Function.update x (op.xbase + i / op.numRows * op.xstride + i % op.numRows)
          (op.x0 (i / op.numRows * op.xstride + i % op.numRows)
            + op.damping_factor
              * (op.b (i / op.numRows * op.bstride + i % op.numRows)
                - rowSum (rowEntries1 op.offsets op.inds op.vals (i % op.numRows))
                    (fun c => op.x0 (i / op.numRows * op.xstride + c)))
              / op.diag (i % op.numRows)))
    ∧ (∀ (op : DefaultJacobiOp2) (x : ℕ → ℚ) (i : ℕ),
      op.execute x i =
        Function.update x (op.xbase + i / op.numRows * op.xstride + i % op.numRows)
          (op.x0 (i / op.numRows * op.xstride + i % op.numRows)
            + op.damping_factor
              * (op.b (i / op.numRows * op.bstride + i % op.numRows)
                - rowSum (rowEntries2 op.inds_beg op.vals_beg op.numEntries (i % op.numRows))
                    (fun c => op.x0 (i / op.numRows * op.xstride + c)))
              / op.diag (i % op.numRows))) :=
  ⟨fun op x i => jac1_exec_eq op x i, fun op x i => jac2_exec_eq op x i⟩

/-- C6.  On the concrete 3×3 matrix with rows `[(0,2),(1,5)]`,
`[(0,1),(1,3),(2,1)]`, `[(1,1),(2,4)]`: the Diagonal Extractor produces
`diag = [2, 3, 4]`, and one Jacobi sweep (all three flat indices) with
`b = [1,1,1]`, `x0 = [0,0,0]`, `ω = 1` produces `x = [1/2, 1/3, 1/4]`. -/
theorem extract_jacobi_concrete :
    exDiagOp1.sweep (fun _ => 0) 0 = 2
    ∧ exDiagOp1.sweep (fun _ => 0) 1 = 3
    ∧ exDiagOp1.sweep (fun _ => 0) 2 = 4
    ∧ exJacOp1.sweep 3 (fun _ => 0) 0 = 1 / 2
    ∧ exJacOp1.sweep 3 (fun _ => 0) 1 = 1 / 3
    ∧ exJacOp1.sweep 3 (fun _ => 0) 2 = 1 / 4 := by
  have h3 : List.range 3 = [0, 1, 2] := by decide
  have hr0 : rowRange1 exJacOp1.offsets (0 % exJacOp1.numRows) = [0, 1] := by decide
  have hr1 : rowRange1 exJacOp1.offsets (1 % exJacOp1.numRows) = [2, 3, 4] := by decide
  have hr2 : rowRange1 exJacOp1.offsets (2 % exJacOp1.numRows) = [5, 6] := by decide
  have hd0 : exDiagOp1.sweep (fun _ => 0) 0 = 2 := by decide
  have hd1 : exDiagOp1.sweep (fun _ => 0) 1 = 3 := by decide
  have hd2 : exDiagOp1.sweep (fun _ => 0) 2 = 4 := by decide
  refine ⟨hd0, hd1, hd2, ?_, ?_, ?_⟩ <;>
  · simp only [DefaultJacobiOp1.sweep, h3, List.foldl_cons, List.foldl_nil,
      DefaultJacobiOp1.execute, hr0, hr1, hr2]
    norm_num [exJacOp1, exInds, exVals, Function.update, hd0, hd1, hd2]

/-- C8.  For every matrix (either format), diag, `b`, `x0`, `ω` and
strides: one Jacobi sweep over the flat range `[0, numRows*numRHS)` gives
exactly the same buffer as `numRHS` successive single-right-hand-side
sweeps over `[0, numRows)`, the `rhs`-th run with the `x`, `x0` and `b`
pointers advanced to column `rhs` (`x`, `x0` by `rhs*xstride`, `b` by
`rhs*bstride`), matching the flat-index decomposition
`row = i mod numRows`, `rhs = (i - row) / numRows`. -/
theorem jacobi_multivector_columns :
    (∀ (op : DefaultJacobiOp1) (numRHS : ℕ) (x : ℕ → ℚ),
      op.sweep (op.numRows * numRHS) x
        = (List.range numRHS).foldl
            (fun y rhs => (colOp1 op rhs).sweep op.numRows y) x)
    ∧ (∀ (op : DefaultJacobiOp2) (numRHS : ℕ) (x : ℕ → ℚ),
      op.sweep (op.numRows * numRHS) x
        = (List.range numRHS).foldl
            (fun y rhs => (colOp2 op rhs).sweep op.numRows y) x) :=
  ⟨fun op n x => jac1_sweep_cols op n x, fun op n x => jac2_sweep_cols op n x⟩

/-- `find?` returns the first match of a split list whose head part has
no match and whose middle element matches. -/
theorem find_first (l1 : List (ℕ × ℚ)) (p : ℕ × ℚ) (l2 : List (ℕ × ℚ))
    (row : ℕ) (hp : p.1 = row) (h1 : ∀ q ∈ l1, q.1 ≠ row) :
    (l1 ++ p :: l2).find? (fun q => q.1 == row) = some p := by
  rw [List.find?_append]
  have hnone : l1.find? (fun q => q.1 == row) = none :=
    List.find?_eq_none.mpr (fun q hq => by simpa using h1 q hq)
  rw [hnone, List.find?_cons_of_pos _ (by simpa using hp)]
  rfl

/-- C3.  For every row `r` (either format): if the row holds at least one
entry whose column index equals `r`, the extractor sets `diag[r]` to the
value of the FIRST such entry in the row's storage order (exhibited by an
arbitrary split of the entry list at the first match); if the row holds
no such entry — the empty row included — the extractor returns `diag`
exactly as given.  The `break` after the first match ("scans no further")
is captured by first-match-wins: later entries never influence the result. -/
theorem extract_first_match :
    (∀ (op : ExtractDiagonalOp1) (diag : ℕ → ℚ) (row : ℕ),
      ((∀ p ∈ rowEntries1 op.offsets op.inds op.vals row, p.1 ≠ row) →
        op.execute diag row = diag)
      ∧ (∀ l1 p l2, rowEntries1 op.offsets op.inds op.vals row = l1 ++ p :: l2 →
          p.1 = row → (∀ q ∈ l1, q.1 ≠ row) →
          op.execute diag row = Function.update diag row p.2))
    ∧ (∀ (op : ExtractDiagonalOp2) (diag : ℕ → ℚ) (row : ℕ),
      ((∀ p ∈ rowEntries2 op.inds_beg op.vals_beg op.numEntries row, p.1 ≠ row) →
        op.execute diag row = diag)
      ∧ (∀ l1 p l2,
          rowEntries2 op.inds_beg op.vals_beg op.numEntries row = l1 ++ p :: l2 →
          p.1 = row → (∀ q ∈ l1, q.1 ≠ row) →
          op.execute diag row = Function.update diag row p.2)) := by
  constructor
  · intro op diag row
    constructor
    · intro h
      rw [extract1_exec_eq]
      have hn : (rowEntries1 op.offsets op.inds op.vals row).find?
          (fun p => p.1 == row) = none :=
        List.find?_eq_none.mpr (fun p hp => by simpa using h p hp)
      rw [hn]
    · intro l1 p l2 hsplit hp h1
      rw [extract1_exec_eq, hsplit, find_first l1 p l2 row hp h1]
  · intro op diag row
    constructor
    · intro h
      rw [extract2_exec_eq]
      have hn : (rowEntries2 op.inds_beg op.vals_beg op.numEntries row).find?
          (fun p => p.1 == row) = none :=
        List.find?_eq_none.mpr (fun p hp => by simpa using h p hp)
      rw [hn]
    · intro l1 p l2 hsplit hp h1
      rw [extract2_exec_eq, hsplit, find_first l1 p l2 row hp h1]

/-- C3, witness: on the example matrix, row 3 is empty so `diag` is
returned untouched, and row 0 splits as `[] ++ (0,2) :: [(1,5)]` so the
first diagonal match `(0,2)` is written; both formats. -/
theorem extract_first_match_witness :
    ((∀ p ∈ rowEntries1 exDiagOp1.offsets exDiagOp1.inds exDiagOp1.vals 3, p.1 ≠ 3)
      ∧ exDiagOp1.execute (fun _ => 7) 3 = fun _ => 7)
    ∧ (rowEntries1 exDiagOp1.offsets exDiagOp1.inds exDiagOp1.vals 0
        = [] ++ (0, 2) :: [(1, 5)]
      ∧ exDiagOp1.execute (fun _ => 7) 0 = Function.update (fun _ => 7) 0 2)
    ∧ ((∀ p ∈ rowEntries2 exDiagOp2.inds_beg exDiagOp2.vals_beg exDiagOp2.numEntries 3,
        p.1 ≠ 3)
      ∧ exDiagOp2.execute (fun _ => 7) 3 = fun _ => 7)
    ∧ (rowEntries2 exDiagOp2.inds_beg exDiagOp2.vals_beg exDiagOp2.numEntries 0
        = [] ++ (0, 2) :: [(1, 5)]
      ∧ exDiagOp2.execute (fun _ => 7) 0 = Function.update (fun _ => 7) 0 2) :=
  ⟨⟨by decide, (extract_first_match.1 exDiagOp1 (fun _ => 7) 3).1 (by decide)⟩,
    ⟨by decide,
      (extract_first_match.1 exDiagOp1 (fun _ => 7) 0).2 [] (0, 2) [(1, 5)]
        (by decide) rfl (by decide)⟩,
    ⟨by decide, (extract_first_match.2 exDiagOp2 (fun _ => 7) 3).1 (by decide)⟩,
    ⟨by decide,
      (extract_first_match.2 exDiagOp2 (fun _ => 7) 0).2 [] (0, 2) [(1, 5)]
        (by decide) rfl (by decide)⟩⟩

/-- A full format-A extractor run, evaluated at a row below `numRows`:
the slot holds the first diagonal match of that row, or its prior
contents when the row has none. -/
theorem extract1_sweep_eval (op : ExtractDiagonalOp1) (d : ℕ → ℚ) (r : ℕ)
    (hr : r < op.numRows) :
    op.sweep d r = diagResult (rowEntries1 op.offsets op.inds op.vals r) (d r) r := by
  have h := fold_diag_eval op.execute
    (fun row => rowEntries1 op.offsets op.inds op.vals row)
    (fun d row k hk => extract1_frame op d row k hk)
    (fun d row => extract1_val op d row) op.numRows r d
  rw [ExtractDiagonalOp1.sweep]
  rw [h, if_pos hr]

/-- A full format-B extractor run, evaluated at a row below `numRows`. -/
theorem extract2_sweep_eval (op : ExtractDiagonalOp2) (d : ℕ → ℚ) (r : ℕ)
    (hr : r < op.numRows) :
    op.sweep d r
      = diagResult (rowEntries2 op.inds_beg op.vals_beg op.numEntries r) (d r) r := by
  have h := fold_diag_eval op.execute
    (fun row => rowEntries2 op.inds_beg op.vals_beg op.numEntries row)
    (fun d row k hk => extract2_frame op d row k hk)
    (fun d row => extract2_val op d row) op.numRows r d
  rw [ExtractDiagonalOp2.sweep]
  rw [h, if_pos hr]

/-- When the row has a diagonal entry, its extracted value does not
depend on the slot's prior contents. -/
theorem diagResult_indep (l : List (ℕ × ℚ)) (d d' : ℚ) (r : ℕ)
    (h : ∃ p ∈ l, p.1 = r) : diagResult l d r = diagResult l d' r := by
  rcases h with ⟨p, hp, hpr⟩
  have hs : (l.find? (fun q => q.1 == r)).isSome :=
    List.find?_isSome.mpr ⟨p, hp, by simpa using hpr⟩
  rw [diagResult, diagResult]
  cases hf : l.find? (fun q => q.1 == r) with
  | none => rw [hf] at hs; simp at hs
  | some q => rfl

/-- C4.  For matrices holding the same per-row entry sequences in the two
formats, with an explicit diagonal entry in every row, the two Diagonal
Extractors produce identical `diag` values on all `numRows` slots —
whatever each output buffer previously held. -/
theorem extract_format_agreement :
    ∀ (op1 : ExtractDiagonalOp1) (op2 : ExtractDiagonalOp2) (d1 d2 : ℕ → ℚ),
      op2.numRows = op1.numRows →
      (∀ r, r < op1.numRows →
        rowEntries1 op1.offsets op1.inds op1.vals r
          = rowEntries2 op2.inds_beg op2.vals_beg op2.numEntries r) →
      (∀ r, r < op1.numRows →
        ∃ p ∈ rowEntries1 op1.offsets op1.inds op1.vals r, p.1 = r) →
      ∀ r, r < op1.numRows → op1.sweep d1 r = op2.sweep d2 r := by
  intro op1 op2 d1 d2 hn hent hdiag r hr
  have hr2 : r < op2.numRows := by rw [hn]; exact hr
  rw [extract1_sweep_eval op1 d1 r hr, extract2_sweep_eval op2 d2 r hr2,
    ← hent r hr]
  exact diagResult_indep _ _ _ _ (hdiag r hr)

/-- C4, witness: the example 3×3 matrix in both formats, with different
initial buffer contents (0 vs 9), agrees on all three extracted slots. -/
theorem extract_format_agreement_witness :
    exDiagOp2.numRows = exDiagOp1.numRows
    ∧ (∀ r, r < exDiagOp1.numRows →
        rowEntries1 exDiagOp1.offsets exDiagOp1.inds exDiagOp1.vals r
          = rowEntries2 exDiagOp2.inds_beg exDiagOp2.vals_beg exDiagOp2.numEntries r)
    ∧ (∀ r, r < exDiagOp1.numRows →
        ∃ p ∈ rowEntries1 exDiagOp1.offsets exDiagOp1.inds exDiagOp1.vals r, p.1 = r)
    ∧ ∀ r, r < exDiagOp1.numRows →
        exDiagOp1.sweep (fun _ => 0) r = exDiagOp2.sweep (fun _ => 9) r :=
  ⟨rfl, by decide, by decide,
    extract_format_agreement exDiagOp1 exDiagOp2 (fun _ => 0) (fun _ => 9)
      rfl (by decide) (by decide)⟩

/-- 2×2 lower-triangular example for Gauss-Seidel: rows `[(0,2)]` and
`[(0,1),(1,4)]`, `diag = [2,4]`, `b = [2,6]`, `ω = 1`; the solve gives
`x = [1, 5/4]`. -/
def gsTriOp1 : DefaultFineGrainHybridGaussSeidelOp1 :=
  { offsets := fun r => [0, 1, 3].getD r 0, inds := fun c => [0, 0, 1].getD c 0
    vals := fun c => [2, 1, 4].getD c 0, diag := fun r => [2, 4].getD r 0
    numRows := 2, b := fun r => [2, 6].getD r 0, damping_factor := 1
    xstride := 2, bstride := 2, xbase := 0 }

/-- The same 2×2 lower-triangular matrix in format-B storage. -/
def gsTriOp2 : DefaultFineGrainHybridGaussSeidelOp2 :=
  { inds_beg := fun r j => ([[0], [0, 1]].getD r []).getD j 0
    vals_beg := fun r j => ([[2], [1, 4]].getD r []).getD j 0
    numEntries := fun r => [1, 2].getD r 0, diag := fun r => [2, 4].getD r 0
    numRows := 2, b := fun r => [2, 6].getD r 0, damping_factor := 1
    xstride := 2, bstride := 2, xbase := 0 }

/-- C5.  On a matrix whose rows hold only columns `≤ r` (diagonal plus
strictly-lower entries), with the diagonal weight of every row equal to
the nonzero `diag[r]`: one Gauss-Seidel pass with `ω = 1` in strictly
increasing row order, on a single right-hand side, leaves `x` satisfying
every row equation `Σ v * x[c] = b[r]` — and `x` agrees on all rows with
any solution of the system, i.e. it IS the exact solution of the
lower-triangular solve, whatever `x` initially held.  Both formats. -/
theorem gs_one_sweep_triangular :
    (∀ (op : DefaultFineGrainHybridGaussSeidelOp1) (x : ℕ → ℚ),
      op.damping_factor = 1 → op.xbase = 0 →
      (∀ r, r < op.numRows →
        ∀ p ∈ rowEntries1 op.offsets op.inds op.vals r, p.1 ≤ r) →
      (∀ r, r < op.numRows →
        (((rowEntries1 op.offsets op.inds op.vals r).filter
          (fun p => p.1 == r)).map Prod.snd).sum = op.diag r) →
      (∀ r, r < op.numRows → op.diag r ≠ 0) →
      (∀ r, r < op.numRows →
        rowSum (rowEntries1 op.offsets op.inds op.vals r)
          (op.sweep op.numRows x) = op.b r)
      ∧ (∀ z, (∀ r, r < op.numRows →
            rowSum (rowEntries1 op.offsets op.inds op.vals r) z = op.b r) →
          ∀ r, r < op.numRows → op.sweep op.numRows x r = z r))
    ∧ (∀ (op : DefaultFineGrainHybridGaussSeidelOp2) (x : ℕ → ℚ),
      op.damping_factor = 1 → op.xbase = 0 →
      (∀ r, r < op.numRows →
        ∀ p ∈ rowEntries2 op.inds_beg op.vals_beg op.numEntries r, p.1 ≤ r) →
      (∀ r, r < op.numRows →
        (((rowEntries2 op.inds_beg op.vals_beg op.numEntries r).filter
          (fun p => p.1 == r)).map Prod.snd).sum = op.diag r) →
      (∀ r, r < op.numRows → op.diag r ≠ 0) →
      (∀ r, r < op.numRows →
        rowSum (rowEntries2 op.inds_beg op.vals_beg op.numEntries r)
          (op.sweep op.numRows x) = op.b r)
      ∧ (∀ z, (∀ r, r < op.numRows →
            rowSum (rowEntries2 op.inds_beg op.vals_beg op.numEntries r) z = op.b r) →
          ∀ r, r < op.numRows → op.sweep op.numRows x r = z r)) := by
  constructor
  · intro op x hw hxb hlow hdiag hne
    have hg : ∀ (y : ℕ → ℚ) (i : ℕ), i < op.numRows → op.execute y i
        = Function.update y i
          (y i + (op.b i - rowSum (rowEntries1 op.offsets op.inds op.vals i) y)
            / op.diag i) := by
      intro y i hi
      rw [gs1_exec_single op y i hi hxb, hw, one_mul]
    have hres := gauss_seidel_lower_tri
      (fun r => rowEntries1 op.offsets op.inds op.vals r) op.diag op.b
      op.numRows op.execute hg hlow hdiag hne x
    exact ⟨hres, fun z hz r hr =>
      lower_tri_unique (fun r => rowEntries1 op.offsets op.inds op.vals r)
        op.diag op.b op.numRows hlow hdiag hne _ z hres hz r hr⟩
  · intro op x hw hxb hlow hdiag hne
    have hg : ∀ (y : ℕ → ℚ) (i : ℕ), i < op.numRows → op.execute y i
        = Function.update y i
          (y i + (op.b i
              - rowSum (rowEntries2 op.inds_beg op.vals_beg op.numEntries i) y)
            / op.diag i) := by
      intro y i hi
      rw [gs2_exec_single op y i hi hxb, hw, one_mul]
    have hres := gauss_seidel_lower_tri
      (fun r => rowEntries2 op.inds_beg op.vals_beg op.numEntries r) op.diag op.b
      op.numRows op.execute hg hlow hdiag hne x
    exact ⟨hres, fun z hz r hr =>
      lower_tri_unique (fun r => rowEntries2 op.inds_beg op.vals_beg op.numEntries r)
        op.diag op.b op.numRows hlow hdiag hne _ z hres hz r hr⟩

/-- C5, witness: both 2×2 lower-triangular example kernels satisfy the
hypotheses, and one `ω = 1` sweep from the initial guess `x = [7,7]`
satisfies both row equations and agrees with every solution. -/
theorem gs_one_sweep_triangular_witness :
    (gsTriOp1.damping_factor = 1 ∧ gsTriOp1.xbase = 0
      ∧ (∀ r, r < gsTriOp1.numRows →
          ∀ p ∈ rowEntries1 gsTriOp1.offsets gsTriOp1.inds gsTriOp1.vals r, p.1 ≤ r)
      ∧ (∀ r, r < gsTriOp1.numRows →
          (((rowEntries1 gsTriOp1.offsets gsTriOp1.inds gsTriOp1.vals r).filter
            (fun p => p.1 == r)).map Prod.snd).sum = gsTriOp1.diag r)
      ∧ (∀ r, r < gsTriOp1.numRows → gsTriOp1.diag r ≠ 0)
      ∧ ((∀ r, r < gsTriOp1.numRows →
            rowSum (rowEntries1 gsTriOp1.offsets gsTriOp1.inds gsTriOp1.vals r)
              (gsTriOp1.sweep gsTriOp1.numRows (fun _ => 7)) = gsTriOp1.b r)
        ∧ ∀ z, (∀ r, r < gsTriOp1.numRows →
              rowSum (rowEntries1 gsTriOp1.offsets gsTriOp1.inds gsTriOp1.vals r) z
                = gsTriOp1.b r) →
            ∀ r, r < gsTriOp1.numRows →
              gsTriOp1.sweep gsTriOp1.numRows (fun _ => 7) r = z r))
    ∧ (gsTriOp2.damping_factor = 1 ∧ gsTriOp2.xbase = 0
      ∧ (∀ r, r < gsTriOp2.numRows →
          ∀ p ∈ rowEntries2 gsTriOp2.inds_beg gsTriOp2.vals_beg gsTriOp2.numEntries r,
            p.1 ≤ r)
      ∧ (∀ r, r < gsTriOp2.numRows →
          (((rowEntries2 gsTriOp2.inds_beg gsTriOp2.vals_beg gsTriOp2.numEntries r).filter
            (fun p => p.1 == r)).map Prod.snd).sum = gsTriOp2.diag r)
      ∧ (∀ r, r < gsTriOp2.numRows → gsTriOp2.diag r ≠ 0)
      ∧ ((∀ r, r < gsTriOp2.numRows →
            rowSum (rowEntries2 gsTriOp2.inds_beg gsTriOp2.vals_beg gsTriOp2.numEntries r)
              (gsTriOp2.sweep gsTriOp2.numRows (fun _ => 7)) = gsTriOp2.b r)
        ∧ ∀ z, (∀ r, r < gsTriOp2.numRows →
              rowSum (rowEntries2 gsTriOp2.inds_beg gsTriOp2.vals_beg gsTriOp2.numEntries r)
                z = gsTriOp2.b r) →
            ∀ r, r < gsTriOp2.numRows →
              gsTriOp2.sweep gsTriOp2.numRows (fun _ => 7) r = z r)) := by
  have hs1 : ∀ r, r < gsTriOp1.numRows →
      (((rowEntries1 gsTriOp1.offsets gsTriOp1.inds gsTriOp1.vals r).filter
        (fun p => p.1 == r)).map Prod.snd).sum = gsTriOp1.diag r := by
    intro r hr
    have h2 : gsTriOp1.numRows = 2 := rfl
    rw [h2] at hr
    have : r = 0 ∨ r = 1 := by omega
    rcases this with h | h <;> subst h
    · have e : (rowEntries1 gsTriOp1.offsets gsTriOp1.inds gsTriOp1.vals 0).filter
          (fun p => p.1 == 0) = [(0, 2)] := by decide
      rw [e]
      norm_num [gsTriOp1]
    · have e : (rowEntries1 gsTriOp1.offsets gsTriOp1.inds gsTriOp1.vals 1).filter
          (fun p => p.1 == 1) = [(1, 4)] := by decide
      rw [e]
      norm_num [gsTriOp1]
  have hs2 : ∀ r, r < gsTriOp2.numRows →
      (((rowEntries2 gsTriOp2.inds_beg gsTriOp2.vals_beg gsTriOp2.numEntries r).filter
        (fun p => p.1 == r)).map Prod.snd).sum = gsTriOp2.diag r := by
    intro r hr
    have h2 : gsTriOp2.numRows = 2 := rfl
    rw [h2] at hr
    have : r = 0 ∨ r = 1 := by omega
    rcases this with h | h <;> subst h
    · have e : (rowEntries2 gsTriOp2.inds_beg gsTriOp2.vals_beg gsTriOp2.numEntries 0).filter
          (fun p => p.1 == 0) = [(0, 2)] := by decide
      rw [e]
      norm_num [gsTriOp2]
    · have e : (rowEntries2 gsTriOp2.inds_beg gsTriOp2.vals_beg gsTriOp2.numEntries 1).filter
          (fun p => p.1 == 1) = [(1, 4)] := by decide
      rw [e]
      norm_num [gsTriOp2]
  exact ⟨⟨rfl, rfl, by decide, hs1, by decide,
      gs_one_sweep_triangular.1 gsTriOp1 (fun _ => 7) rfl rfl (by decide) hs1
        (by decide)⟩,
    ⟨rfl, rfl, by decide, hs2, by decide,
      gs_one_sweep_triangular.2 gsTriOp2 (fun _ => 7) rfl rfl (by decide) hs2
        (by decide)⟩⟩

/-- With `ω = 0` the format-A Jacobi update writes the slot's `x0` value:
the residual term is nullified. -/
theorem jac1_exec_zero (op : DefaultJacobiOp1) (h : op.damping_factor = 0)
    (x : ℕ → ℚ) (i : ℕ) :
    op.execute x i = Function.update x
      (op.xbase + i / op.numRows * op.xstride + i % op.numRows)
      (op.x0 (i / op.numRows * op.xstride + i % op.numRows)) := by
  rw [jac1_exec_eq, h]
  norm_num

/-- With `ω = 0` the format-B Jacobi update writes the slot's `x0` value. -/
theorem jac2_exec_zero (op : DefaultJacobiOp2) (h : op.damping_factor = 0)
    (x : ℕ → ℚ) (i : ℕ) :
    op.execute x i = Function.update x
      (op.xbase + i / op.numRows * op.xstride + i % op.numRows)
      (op.x0 (i / op.numRows * op.xstride + i % op.numRows)) := by
  rw [jac2_exec_eq, h]
  norm_num

/-- Any number of `ω = 0` format-A Jacobi updates, in any order: every
touched x-slot holds the corresponding `x0` entry, every other slot is
untouched. -/
theorem jac1_zero_fold (op : DefaultJacobiOp1) (h : op.damping_factor = 0)
    (L : List ℕ) (x : ℕ → ℚ) (s : ℕ) :
    (L.foldl op.execute x) s
      = if ∃ i ∈ L, s = op.xbase + i / op.numRows * op.xstride + i % op.numRows
        then op.x0 (s - op.xbase) else x s := by
  induction L generalizing x with
  | nil => simp
  | cons i T ih =>
    rw [List.foldl_cons, ih]
    by_cases hT : ∃ j ∈ T,
        s = op.xbase + j / op.numRows * op.xstride + j % op.numRows
    · rcases hT with ⟨j, hj, hsj⟩
      rw [if_pos ⟨j, hj, hsj⟩, if_pos ⟨j, List.mem_cons_of_mem i hj, hsj⟩]
    · rw [if_neg hT, jac1_exec_zero op h]
      by_cases hs : s = op.xbase + i / op.numRows * op.xstride + i % op.numRows
      · rw [if_pos ⟨i, List.mem_cons_self i T, hs⟩, hs,
          Function.update_same]
        congr 1
        set q := i / op.numRows * op.xstride
        set m := i % op.numRows
        omega
      · rw [if_neg ?hcond, Function.update_noteq hs]
        case hcond =>
          rintro ⟨j, hj, hsj⟩
          rcases List.mem_cons.mp hj with hji | hjT
          · exact hs (hji ▸ hsj)
          · exact hT ⟨j, hjT, hsj⟩

/-- Any number of `ω = 0` format-B Jacobi updates. -/
theorem jac2_zero_fold (op : DefaultJacobiOp2) (h : op.damping_factor = 0)
    (L : List ℕ) (x : ℕ → ℚ) (s : ℕ) :
    (L.foldl op.execute x) s
      = if ∃ i ∈ L, s = op.xbase + i / op.numRows * op.xstride + i % op.numRows
        then op.x0 (s - op.xbase) else x s := by
  induction L generalizing x with
  | nil => simp
  | cons i T ih =>
    rw [List.foldl_cons, ih]
    by_cases hT : ∃ j ∈ T,
        s = op.xbase + j / op.numRows * op.xstride + j % op.numRows
    · rcases hT with ⟨j, hj, hsj⟩
      rw [if_pos ⟨j, hj, hsj⟩, if_pos ⟨j, List.mem_cons_of_mem i hj, hsj⟩]
    · rw [if_neg hT, jac2_exec_zero op h]
      by_cases hs : s = op.xbase + i / op.numRows * op.xstride + i % op.numRows
      · rw [if_pos ⟨i, List.mem_cons_self i T, hs⟩, hs,
          Function.update_same]
        congr 1
        set q := i / op.numRows * op.xstride
        set m := i % op.numRows
        omega
      · rw [if_neg ?hcond, Function.update_noteq hs]
        case hcond =>
          rintro ⟨j, hj, hsj⟩
          rcases List.mem_cons.mp hj with hji | hjT
          · exact hs (hji ▸ hsj)
          · exact hT ⟨j, hjT, hsj⟩

/-- C7.  With damping factor `ω = 0`, for any matrix (either format), any
diag, `b`, `x0` and strides: each per-index Jacobi update writes
`x[r,rhs] = x0[r,rhs]` (the residual term is nullified), and any
sequence of such updates — in particular any number of repeated full
sweeps — leaves every touched slot of `x` holding exactly the
corresponding `x0` entry and every untouched slot unchanged. -/
theorem jacobi_zero_damping :
    (∀ op : DefaultJacobiOp1, op.damping_factor = 0 →
      (∀ (x : ℕ → ℚ) (i : ℕ),
        op.execute x i = Function.update x
          (op.xbase + i / op.numRows * op.xstride + i % op.numRows)
          (op.x0 (i / op.numRows * op.xstride + i % op.numRows)))
      ∧ ∀ (L : List ℕ) (x : ℕ → ℚ) (s : ℕ),
        (L.foldl op.execute x) s
          = if ∃ i ∈ L,
                s = op.xbase + i / op.numRows * op.xstride + i % op.numRows
            then op.x0 (s - op.xbase) else x s)
    ∧ (∀ op : DefaultJacobiOp2, op.damping_factor = 0 →
      (∀ (x : ℕ → ℚ) (i : ℕ),
        op.execute x i = Function.update x
          (op.xbase + i / op.numRows * op.xstride + i % op.numRows)
          (op.x0 (i / op.numRows * op.xstride + i % op.numRows)))
      ∧ ∀ (L : List ℕ) (x : ℕ → ℚ) (s : ℕ),
        (L.foldl op.execute x) s
          = if ∃ i ∈ L,
                s = op.xbase + i / op.numRows * op.xstride + i % op.numRows
            then op.x0 (s - op.xbase) else x s) :=
  ⟨fun op h => ⟨jac1_exec_zero op h, jac1_zero_fold op h⟩,
    fun op h => ⟨jac2_exec_zero op h, jac2_zero_fold op h⟩⟩

/-- Zero-damping format-A Jacobi kernel on the example matrix. -/
def jacZeroOp1 : DefaultJacobiOp1 :=
  { offsets := exOffsets, inds := exInds, vals := exVals
    diag := fun r => [2, 3, 4].getD r 0, numRows := 3
    x0 := fun k => [5, 6, 7, 8, 9, 10].getD k 0, b := fun _ => 1
    damping_factor := 0, xstride := 3, bstride := 3, xbase := 0 }

/-- Zero-damping format-B Jacobi kernel on the example matrix. -/
def jacZeroOp2 : DefaultJacobiOp2 :=
  { inds_beg := exIndsB, vals_beg := exValsB, numEntries := exNumEntries
    diag := fun r => [2, 3, 4].getD r 0, numRows := 3
    x0 := fun k => [5, 6, 7, 8, 9, 10].getD k 0, b := fun _ => 1
    damping_factor := 0, xstride := 3, bstride := 3, xbase := 0 }

/-- C7, witness: both zero-damping kernels on the example matrix. -/
theorem jacobi_zero_damping_witness :
    (jacZeroOp1.damping_factor = 0
      ∧ ((∀ (x : ℕ → ℚ) (i : ℕ),
          jacZeroOp1.execute x i = Function.update x
            (jacZeroOp1.xbase + i / jacZeroOp1.numRows * jacZeroOp1.xstride
              + i % jacZeroOp1.numRows)
            (jacZeroOp1.x0 (i / jacZeroOp1.numRows * jacZeroOp1.xstride
              + i % jacZeroOp1.numRows)))
        ∧ ∀ (L : List ℕ) (x : ℕ → ℚ) (s : ℕ),
          (L.foldl jacZeroOp1.execute x) s
            = if ∃ i ∈ L, s = jacZeroOp1.xbase
                  + i / jacZeroOp1.numRows * jacZeroOp1.xstride
                  + i % jacZeroOp1.numRows
              then jacZeroOp1.x0 (s - jacZeroOp1.xbase) else x s))
    ∧ (jacZeroOp2.damping_factor = 0
      ∧ ((∀ (x : ℕ → ℚ) (i : ℕ),
          jacZeroOp2.execute x i = Function.update x
            (jacZeroOp2.xbase + i / jacZeroOp2.numRows * jacZeroOp2.xstride
              + i % jacZeroOp2.numRows)
            (jacZeroOp2.x0 (i / jacZeroOp2.numRows * jacZeroOp2.xstride
              + i % jacZeroOp2.numRows)))
        ∧ ∀ (L : List ℕ) (x : ℕ → ℚ) (s : ℕ),
          (L.foldl jacZeroOp2.execute x) s
            = if ∃ i ∈ L, s = jacZeroOp2.xbase
                  + i / jacZeroOp2.numRows * jacZeroOp2.xstride
                  + i % jacZeroOp2.numRows
              then jacZeroOp2.x0 (s - jacZeroOp2.xbase) else x s)) :=
  ⟨⟨rfl, jacobi_zero_damping.1 jacZeroOp1 rfl⟩,
    ⟨rfl, jacobi_zero_damping.2 jacZeroOp2 rfl⟩⟩

/-- Jacobi kernel with overlapping columns: `numRows = 2` but
`xstride = 1`, so the two columns of the multivector share slots.  All
rows are empty, `x0 = [5, 2, ...]`, `b = 0`, `ω = 1`. -/
def jacCollideOp : DefaultJacobiOp1 :=
  { offsets := fun _ => 0, inds := fun _ => 0, vals := fun _ => 0
    diag := fun _ => 1, numRows := 2
    x0 := fun k => [5, 2, 7, 9].getD k 0, b := fun _ => 0, damping_factor := 1
    xstride := 1, bstride := 1, xbase := 0 }

/-- C9, counterexample.  With `xstride = 1 < numRows = 2` the claimed
disjointness of writes fails: the distinct flat indices `1` (row 1,
column 0) and `2` (row 0, column 1), both in `[0, numRows*numRHS)` for
`numRHS = 2`, write the same slot
`(i div numRows)*xstride + (i mod numRows) = 1` — each of the two updates
changes slot 1 of an all-zero `x` (to the nonzero value 2). -/
theorem jacobi_slots_collide_cex :
    (1 : ℕ) ≠ 2
    ∧ (jacCollideOp.xbase + 1 / jacCollideOp.numRows * jacCollideOp.xstride
        + 1 % jacCollideOp.numRows)
      = (jacCollideOp.xbase + 2 / jacCollideOp.numRows * jacCollideOp.xstride
        + 2 % jacCollideOp.numRows)
    ∧ jacCollideOp.execute (fun _ => 0) 1 1 ≠ 0
    ∧ jacCollideOp.execute (fun _ => 0) 2 1 ≠ 0 := by
  refine ⟨by decide, by decide, ?_, ?_⟩ <;>
  · simp only [DefaultJacobiOp1.execute,
      show rowRange1 jacCollideOp.offsets (1 % jacCollideOp.numRows) = []
        by decide,
      show rowRange1 jacCollideOp.offsets (2 % jacCollideOp.numRows) = []
        by decide,
      List.foldl_nil]
    norm_num [jacCollideOp, Function.update]

/-- C9, amended.  One format-A Jacobi per-index update modifies only the
x-slot `xbase + (i div numRows)*xstride + (i mod numRows)` (all other
slots of `x` are unchanged — `x0`, `b`, `diag` and the matrix arrays are
read-only inputs of the kernel and never written); likewise one Diagonal
Extractor per-row call changes no slot of `diag` other than `row`.
Distinct flat indices write disjoint slots PROVIDED the multivector
layout is non-overlapping, `numRows ≤ xstride` (shown false otherwise by
the counterexample). -/
theorem jacobi_frame_disjoint :
    (∀ (op : DefaultJacobiOp1) (x : ℕ → ℚ) (i k : ℕ),
      k ≠ op.xbase + i / op.numRows * op.xstride + i % op.numRows →
      op.execute x i k = x k)
    ∧ (∀ (op : ExtractDiagonalOp1) (diag : ℕ → ℚ) (row k : ℕ), k ≠ row →
      op.execute diag row k = diag k)
    ∧ (∀ (op : DefaultJacobiOp1) (i j : ℕ),
      0 < op.numRows → op.numRows ≤ op.xstride → i ≠ j →
      op.xbase + i / op.numRows * op.xstride + i % op.numRows
        ≠ op.xbase + j / op.numRows * op.xstride + j % op.numRows) := by
  refine ⟨fun op x i k hk => ?_, fun op diag row k hk => extract1_frame op diag row k hk,
    fun op i j hn hs hij heq => ?_⟩
  · rw [jac1_exec_eq]
    exact Function.update_noteq hk _ _
  · have h1 : i % op.numRows < op.numRows := Nat.mod_lt _ hn
    have h2 : j % op.numRows < op.numRows := Nat.mod_lt _ hn
    have heq2 : i / op.numRows * op.xstride + i % op.numRows
        = j / op.numRows * op.xstride + j % op.numRows := by
      have := heq
      omega
    rcases Nat.lt_trichotomy (i / op.numRows) (j / op.numRows) with h | h | h
    · have hmul : i / op.numRows * op.xstride + op.xstride
          ≤ j / op.numRows * op.xstride := by
        calc i / op.numRows * op.xstride + op.xstride
            = (i / op.numRows + 1) * op.xstride := by ring
          _ ≤ j / op.numRows * op.xstride := Nat.mul_le_mul_right _ h
      omega
    · have hb : i % op.numRows = j % op.numRows := by
        rw [h] at heq2
        exact Nat.add_left_cancel heq2
      refine hij ?_
      calc i = op.numRows * (i / op.numRows) + i % op.numRows :=
            (Nat.div_add_mod i op.numRows).symm
        _ = op.numRows * (j / op.numRows) + j % op.numRows := by rw [h, hb]
        _ = j := Nat.div_add_mod j op.numRows
    · have hmul : j / op.numRows * op.xstride + op.xstride
          ≤ i / op.numRows * op.xstride := by
        calc j / op.numRows * op.xstride + op.xstride
            = (j / op.numRows + 1) * op.xstride := by ring
          _ ≤ i / op.numRows * op.xstride := Nat.mul_le_mul_right _ h
      omega

/-- C9, witness: on the example Jacobi kernel (`numRows = 3 ≤ xstride = 3`)
the update at flat index 0 leaves slot 5 untouched, the extractor call on
row 0 leaves slot 2 untouched, and the distinct flat indices 1 and 2 map
to distinct slots. -/
theorem jacobi_frame_disjoint_witness :
    ((5 : ℕ) ≠ exJacOp1.xbase + 0 / exJacOp1.numRows * exJacOp1.xstride
        + 0 % exJacOp1.numRows
      ∧ exJacOp1.execute (fun _ => 0) 0 5 = (fun _ => (0 : ℚ)) 5)
    ∧ ((2 : ℕ) ≠ 0 ∧ exDiagOp1.execute (fun _ => 0) 0 2 = (fun _ => (0 : ℚ)) 2)
    ∧ (0 < exJacOp1.numRows ∧ exJacOp1.numRows ≤ exJacOp1.xstride ∧ (1 : ℕ) ≠ 2
      ∧ exJacOp1.xbase + 1 / exJacOp1.numRows * exJacOp1.xstride
          + 1 % exJacOp1.numRows
        ≠ exJacOp1.xbase + 2 / exJacOp1.numRows * exJacOp1.xstride
          + 2 % exJacOp1.numRows) :=
  ⟨⟨by decide, jacobi_frame_disjoint.1 exJacOp1 (fun _ => 0) 0 5 (by decide)⟩,
    ⟨by decide, jacobi_frame_disjoint.2.1 exDiagOp1 (fun _ => 0) 0 2 (by decide)⟩,
    by decide, by decide, by decide,
    jacobi_frame_disjoint.2.2 exJacOp1 1 2 (by decide) (by decide) (by decide)⟩

/-- C10.  Both Jacobi kernels address the previous iterate `x0` with the
OUTPUT stride `xstride`: the per-index update at flat index `i` reads
`x0` only at offsets `(i div numRows)*xstride + k` (its column base uses
`xstride` — there is no separate x0-stride parameter in the kernel
struct), while `b` is addressed from the column base
`(i div numRows)*bstride`.  Concretely, replacing `x0` (respectively `b`)
by any function that agrees with it on that column's offsets leaves the
update's result unchanged. -/
theorem jacobi_x0_uses_xstride :
    (∀ (op : DefaultJacobiOp1) (g x : ℕ → ℚ) (i : ℕ),
      (∀ k, g (i / op.numRows * op.xstride + k)
          = op.x0 (i / op.numRows * op.xstride + k)) →
      { op with x0 := g }.execute x i = op.execute x i)
    ∧ (∀ (op : DefaultJacobiOp1) (g x : ℕ → ℚ) (i : ℕ),
      (∀ k, g (i / op.numRows * op.bstride + k)
          = op.b (i / op.numRows * op.bstride + k)) →
      { op with b := g }.execute x i = op.execute x i)
    ∧ (∀ (op : DefaultJacobiOp2) (g x : ℕ → ℚ) (i : ℕ),
      (∀ k, g (i / op.numRows * op.xstride + k)
          = op.x0 (i / op.numRows * op.xstride + k)) →
      { op with x0 := g }.execute x i = op.execute x i)
    ∧ (∀ (op : DefaultJacobiOp2) (g x : ℕ → ℚ) (i : ℕ),
      (∀ k, g (i / op.numRows * op.bstride + k)
          = op.b (i / op.numRows * op.bstride + k)) →
      { op with b := g }.execute x i = op.execute x i) := by
  refine ⟨fun op g x i h => ?_, fun op g x i h => ?_,
    fun op g x i h => ?_, fun op g x i h => ?_⟩
  · rw [jac1_exec_eq, jac1_exec_eq]
    dsimp only
    rw [rowSum_congr (rowEntries1 op.offsets op.inds op.vals (i % op.numRows))
      (fun c => g (i / op.numRows * op.xstride + c))
      (fun c => op.x0 (i / op.numRows * op.xstride + c))
      (fun p _ => h p.1), h (i % op.numRows)]
  · rw [jac1_exec_eq, jac1_exec_eq]
    dsimp only
    rw [h (i % op.numRows)]
  · rw [jac2_exec_eq, jac2_exec_eq]
    dsimp only
    rw [rowSum_congr (rowEntries2 op.inds_beg op.vals_beg op.numEntries (i % op.numRows))
      (fun c => g (i / op.numRows * op.xstride + c))
      (fun c => op.x0 (i / op.numRows * op.xstride + c))
      (fun p _ => h p.1), h (i % op.numRows)]
  · rw [jac2_exec_eq, jac2_exec_eq]
    dsimp only
    rw [h (i % op.numRows)]

/-- A stand-in previous iterate that differs from the example kernel's
`x0` only below offset 3 (outside column 1's address range). -/
def x0ex : ℕ → ℚ := fun k => if k < 3 then 99 else 0

/-- A stand-in right-hand side that differs from the example kernel's `b`
only below offset 3. -/
def bex : ℕ → ℚ := fun k => if k < 3 then 77 else 1

/-- Format-B Jacobi kernel on the example matrix. -/
def exJacOp2 : DefaultJacobiOp2 :=
  { inds_beg := exIndsB, vals_beg := exValsB, numEntries := exNumEntries
    diag := fun r => [2, 3, 4].getD r 0, numRows := 3
    x0 := fun _ => 0, b := fun _ => 1, damping_factor := 1
    xstride := 3, bstride := 3, xbase := 0 }

/-- C10, witness: at flat index 5 (row 2, column 1, column base
`(5 div 3)*3 = 3`), swapping in `x0ex` / `bex` — which agree with the
kernels' `x0` / `b` from offset 3 on — leaves the update unchanged. -/
theorem jacobi_x0_uses_xstride_witness :
    ((∀ k, x0ex (5 / exJacOp1.numRows * exJacOp1.xstride + k)
        = exJacOp1.x0 (5 / exJacOp1.numRows * exJacOp1.xstride + k))
      ∧ { exJacOp1 with x0 := x0ex }.execute (fun _ => 8) 5
          = exJacOp1.execute (fun _ => 8) 5)
    ∧ ((∀ k, bex (5 / exJacOp1.numRows * exJacOp1.bstride + k)
        = exJacOp1.b (5 / exJacOp1.numRows * exJacOp1.bstride + k))
      ∧ { exJacOp1 with b := bex }.execute (fun _ => 8) 5
          = exJacOp1.execute (fun _ => 8) 5)
    ∧ ((∀ k, x0ex (5 / exJacOp2.numRows * exJacOp2.xstride + k)
        = exJacOp2.x0 (5 / exJacOp2.numRows * exJacOp2.xstride + k))
      ∧ { exJacOp2 with x0 := x0ex }.execute (fun _ => 8) 5
          = exJacOp2.execute (fun _ => 8) 5)
    ∧ ((∀ k, bex (5 / exJacOp2.numRows * exJacOp2.bstride + k)
        = exJacOp2.b (5 / exJacOp2.numRows * exJacOp2.bstride + k))
      ∧ { exJacOp2 with b := bex }.execute (fun _ => 8) 5
          = exJacOp2.execute (fun _ => 8) 5) := by
  have hx1 : ∀ k, x0ex (5 / exJacOp1.numRows * exJacOp1.xstride + k)
      = exJacOp1.x0 (5 / exJacOp1.numRows * exJacOp1.xstride + k) := by
    intro k
    have h5 : 5 / exJacOp1.numRows * exJacOp1.xstride = 3 := by decide
    rw [h5]
    have hk : ¬ (3 + k < 3) := by omega
    simp [x0ex, exJacOp1, hk]
  have hb1 : ∀ k, bex (5 / exJacOp1.numRows * exJacOp1.bstride + k)
      = exJacOp1.b (5 / exJacOp1.numRows * exJacOp1.bstride + k) := by
    intro k
    have h5 : 5 / exJacOp1.numRows * exJacOp1.bstride = 3 := by decide
    rw [h5]
    have hk : ¬ (3 + k < 3) := by omega
    simp [bex, exJacOp1, hk]
  have hx2 : ∀ k, x0ex (5 / exJacOp2.numRows * exJacOp2.xstride + k)
      = exJacOp2.x0 (5 / exJacOp2.numRows * exJacOp2.xstride + k) := by
    intro k
    have h5 : 5 / exJacOp2.numRows * exJacOp2.xstride = 3 := by decide
    rw [h5]
    have hk : ¬ (3 + k < 3) := by omega
    simp [x0ex, exJacOp2, hk]
  have hb2 : ∀ k, bex (5 / exJacOp2.numRows * exJacOp2.bstride + k)
      = exJacOp2.b (5 / exJacOp2.numRows * exJacOp2.bstride + k) := by
    intro k
    have h5 : 5 / exJacOp2.numRows * exJacOp2.bstride = 3 := by decide
    rw [h5]
    have hk : ¬ (3 + k < 3) := by omega
    simp [bex, exJacOp2, hk]
  exact ⟨⟨hx1, jacobi_x0_uses_xstride.1 exJacOp1 x0ex (fun _ => 8) 5 hx1⟩,
    ⟨hb1, jacobi_x0_uses_xstride.2.1 exJacOp1 bex (fun _ => 8) 5 hb1⟩,
    ⟨hx2, jacobi_x0_uses_xstride.2.2.1 exJacOp2 x0ex (fun _ => 8) 5 hx2⟩,
    ⟨hb2, jacobi_x0_uses_xstride.2.2.2 exJacOp2 bex (fun _ => 8) 5 hb2⟩⟩

end Kokkos
